import Mathlib

set_option autoImplicit false
set_option maxRecDepth 8192

/-!
Shallow embedding of the organize-rs library (src/lib.rs): a file organizer
that classifies the direct file entries of a directory by extension and
copies them into category sub-folders.  File-system state is modelled
explicitly as a value, and the fallible operations (directory listing,
directory creation, file copy) are driven by an environment of success
oracles, so that every error-recovery path of the source is representable.
Paths are modelled as segment lists: the file `name` in the target
directory `path` lives at `[path, name]`, and the destination of category
`c` is `[path, c, name]`.
-/

/-- Rust `str::split(sep)` over the characters of a string: splits at every
occurrence of `sep`, keeping empty pieces, never returning an empty list. -/
def splitChar (sep : Char) : List Char → List (List Char)
  | [] => [[]]
  | c :: cs =>
    if c = sep then [] :: splitChar sep cs
    else
      match splitChar sep cs with
      | [] => [[c]]
      | h :: t => (c :: h) :: t

/-- Extension extraction of the source, `file_name.split('.').last()`: the
piece after the last dot.  For a dotless name the single piece is the whole
name. -/
def lastSplitExt (f : String) : Option String :=
  ((splitChar '.' f.data).getLast?).map String.mk

/-- Explicit file-system state: a set of directories and an association
list from absolute paths (segment lists) to file contents (byte lists). -/
structure FS where
  dirs : List (List String)
  files : List (List String × List Nat)
deriving DecidableEq

/-- First-match lookup in an association list of files. -/
def lookupFile : List (List String × List Nat) → List String → Option (List Nat)
  | [], _ => none
  | kv :: t, k => if kv.1 = k then some kv.2 else lookupFile t k

/-- Overwrite the first entry with the given key, or append a new entry. -/
def setFile (k : List String) (v : List Nat) :
    List (List String × List Nat) → List (List String × List Nat)
  | [] => [(k, v)]
  | kv :: t => if kv.1 = k then (k, v) :: t else kv :: setFile k v t

def FS.getFile (s : FS) (p : List String) : Option (List Nat) :=
  lookupFile s.files p

def FS.isFile (s : FS) (p : List String) : Prop :=
  p ∈ s.files.map Prod.fst

instance (s : FS) (p : List String) : Decidable (s.isFile p) := by
  unfold FS.isFile; infer_instance

/-- Rust `Path::exists`: a path exists when it is a file or a directory. -/
def FS.pathExists (s : FS) (p : List String) : Prop :=
  s.isFile p ∨ p ∈ s.dirs

instance (s : FS) (p : List String) : Decidable (s.pathExists p) := by
  unfold FS.pathExists; infer_instance

/-- Success oracles for the fallible file-system calls of the source. -/
structure Env where
  readDirOk : String → Bool
  mkdirOk : List String → Bool
  copyOk : List String → List String → Bool

/-- Environment in which every file-system operation succeeds. -/
def Env.allOk : Env := ⟨fun _ => true, fun _ => true, fun _ _ => true⟩

/-- Observable actions of a run: the file-system calls of the source and
the diagnostic lines it prints on per-file failures. -/
inductive Event where
  | readDirEv : String → Event
  | createDirEv : List String → Event
  | createDirFailedDiag : List String → Event
  | fileNotFoundDiag : List String → Event
  | copyEv : List String → List String → Event
  | copyFailedDiag : String → List String → Event
deriving DecidableEq

def Event.isCopy : Event → Bool
  | .copyEv _ _ => true
  | _ => false

/-- Model of `std::fs::create_dir_all`: succeeds when the directory already
exists or the environment lets the creation succeed. -/
def createDirAll (env : Env) (p : List String) (s : FS) : FS × Bool :=
  if p ∈ s.dirs then (s, true)
  else if env.mkdirOk p then ({ s with dirs := p :: s.dirs }, true)
  else (s, false)

/-- Model of `std::fs::copy`: needs a readable source file, an existing
destination directory and the consent of the environment; on success it
overwrites the destination with the source bytes. -/
def copyFile (env : Env) (src dst : List String) (s : FS) : FS × Bool :=
  match lookupFile s.files src with
  | some content =>
    if env.copyOk src dst = true ∧ dst.dropLast ∈ s.dirs then
      ({ s with files := setFile dst content s.files }, true)
    else (s, false)
  | none => (s, false)

/-- Model of `Path::file_name` on a segment path. -/
def fileName (p : List String) : String := p.getLast?.getD ""

/-- Inner loop of `OrganizeMethod::execute` over the category mapping: the
first category whose extension list contains the extracted extension
receives the file.  A `create_dir_all` failure is only reported, after
which the copy is still attempted; a vanished source file makes the loop
continue with the next category; after the copy attempt the loop breaks. -/
def placeFile (path file ext : String) (env : Env) :
    List (String × List String) → FS → FS × List Event
  | [], s => (s, [])
  | (folderName, extList) :: rest, s =>
    if ext ∈ extList then
      let folderPath := [path, folderName]
      let r1 := createDirAll env folderPath s
      let ev1 := if r1.2 then [Event.createDirEv folderPath]
                 else [Event.createDirEv folderPath, Event.createDirFailedDiag folderPath]
      let filePath := [path, file]
      if r1.1.pathExists filePath then
        let destPath := folderPath ++ [fileName filePath]
        let r2 := copyFile env filePath destPath r1.1
        let ev2 := if r2.2 then [Event.copyEv filePath destPath]
                   else [Event.copyEv filePath destPath, Event.copyFailedDiag file destPath]
        (r2.1, ev1 ++ ev2)
      else
        let r3 := placeFile path file ext env rest r1.1
        (r3.1, ev1 ++ Event.fileNotFoundDiag filePath :: r3.2)
    else
      placeFile path file ext env rest s

/-- Body of the per-file iteration of `OrganizeMethod::execute`: extract
the extension with `split('.').last()` and walk the category mapping. -/
def processOneFile (path : String) (env : Env) (exts : List (String × List String))
    (f : String) (s : FS) : FS × List Event :=
  match lastSplitExt f with
  | some ext => placeFile path f ext env exts s
  | none => (s, [])

/-- Outer loop of `OrganizeMethod::execute` over the candidate files. -/
def processFiles (path : String) (env : Env) (exts : List (String × List String)) :
    List String → FS → FS × List Event
  | [], s => (s, [])
  | f :: rest, s =>
    let r1 := processOneFile path env exts f s
    let r2 := processFiles path env exts rest r1.1
    (r2.1, r1.2 ++ r2.2)

/-- Names of the regular files lying directly in the directory `path`,
in the order of the association list: what `read_dir` plus the `is_file`
filter of `get_files` observes. -/
def topFilesL : List (List String × List Nat) → String → List String
  | [], _ => []
  | kv :: t, path =>
    match kv.1 with
    | [p, name] => if p = path then name :: topFilesL t path else topFilesL t path
    | _ => topFilesL t path

def topFiles (s : FS) (path : String) : List String := topFilesL s.files path

/-- The classification method of the source, a closed enum whose only
data-bearing variant carries the category mapping.  The unordered Rust
`HashMap` is embedded as a list whose order stands for the unspecified
iteration order. -/
inductive OrganizeMethod where
  | Extension : List (String × List String) → OrganizeMethod
  | Date : OrganizeMethod
  | Alphabetical : OrganizeMethod
  | Size : OrganizeMethod
deriving DecidableEq

def OrganizeMethod.custom_extension (extensions : List (String × List String)) :
    OrganizeMethod :=
  OrganizeMethod.Extension extensions

/-- `OrganizeMethod::get_files`: for the `Extension` method, list the
direct regular-file entries of the directory, an unreadable directory
yielding the empty list; every other method yields the empty list without
touching the directory. -/
def OrganizeMethod.get_files (m : OrganizeMethod) (env : Env) (s : FS)
    (path : String) : List String × List Event :=
  match m with
  | .Extension _ =>
    if env.readDirOk path then (topFiles s path, [Event.readDirEv path])
    else ([], [Event.readDirEv path])
  | _ => ([], [])

/-- `OrganizeMethod::execute`: fetch the candidates, then, only for the
`Extension` variant, classify and place each one.  The `_parallel` flag is
taken and ignored, exactly as in the source. -/
def OrganizeMethod.execute (m : OrganizeMethod) (_parallel : Bool) (path : String)
    (env : Env) (s : FS) : FS × List Event :=
  let r0 := m.get_files env s path
  match m with
  | .Extension extensions =>
    let r1 := processFiles path env extensions r0.1 s
    (r1.1, r0.2 ++ r1.2)
  | _ => (s, r0.2)

structure OrganizeOptions where
  method : OrganizeMethod
  parallel : Bool

def OrganizeOptions.new (method : OrganizeMethod) (parallel : Bool) : OrganizeOptions :=
  ⟨method, parallel⟩

/-- The five-entry default table, in the insertion order of the source. -/
def defaultExtensions : List (String × List String) :=
  [("Documents", ["pdf", "txt", "docs"]),
   ("Images", ["png", "jpg", "jpeg"]),
   ("Audios", ["mp3", "wav", "flac"]),
   ("Videos", ["mp4", "mov", "avi"]),
   ("Sheets", ["csv", "xlsx", "ods"])]

def OrganizeOptions.default : OrganizeOptions :=
  ⟨OrganizeMethod.Extension defaultExtensions, true⟩

def OrganizeOptions.set_method (o : OrganizeOptions) (method : OrganizeMethod) :
    OrganizeOptions :=
  { o with method }

def OrganizeOptions.set_parallel (o : OrganizeOptions) (parallel : Bool) :
    OrganizeOptions :=
  { o with parallel }

/-- The error kind of the single fatal failure of `Organize::execute`. -/
inductive ErrKind where
  | invalidInput : ErrKind
deriving DecidableEq

/-- Model of `Result<(), std::io::Error>` as returned by `Organize::execute`. -/
inductive ExecResult where
  | ok : ExecResult
  | err : ErrKind → ExecResult
deriving DecidableEq

def ExecResult.isOk : ExecResult → Bool
  | .ok => true
  | .err _ => false

structure Organize where
  options : OrganizeOptions
  path : String

def Organize.new (path : String) (options : OrganizeOptions) : Organize :=
  ⟨options, path⟩

def Organize.set_path (o : Organize) (path : String) : Organize :=
  { o with path }

def Organize.set_options (o : Organize) (options : OrganizeOptions) : Organize :=
  { o with options }

/-- `Organize::execute`: fail with `InvalidInput` on an empty path before
any directory access, otherwise run the method and return success. -/
def Organize.execute (o : Organize) (env : Env) (s : FS) :
    ExecResult × FS × List Event :=
  if o.path.isEmpty then (ExecResult.err ErrKind.invalidInput, s, [])
  else (ExecResult.ok, o.options.method.execute o.options.parallel o.path env s)

/-! ### Association-list lemmas -/

theorem lookup_setFile_self (k : List String) (v : List Nat)
    (l : List (List String × List Nat)) :
    lookupFile (setFile k v l) k = some v := by
  induction l with
  | nil => simp [setFile, lookupFile]
  | cons kv t ih =>
    by_cases h : kv.1 = k
    · simp [setFile, h, lookupFile]
    · simp [setFile, h, lookupFile, ih]

theorem lookup_setFile_ne {k k' : List String} (v : List Nat)
    (l : List (List String × List Nat)) (h : k' ≠ k) :
    lookupFile (setFile k v l) k' = lookupFile l k' := by
  have h1 : ¬ k = k' := fun hh => h hh.symm
  induction l with
  | nil => simp [setFile, lookupFile, h1]
  | cons kv t ih =>
    by_cases hk : kv.1 = k
    · have h2 : ¬ kv.1 = k' := by rw [hk]; exact h1
      simp [setFile, hk, lookupFile, h1, h2]
    · by_cases hk' : kv.1 = k'
      · simp [setFile, hk, lookupFile, hk', h]
      · simp [setFile, hk, lookupFile, hk', ih]

theorem setFile_self {k : List String} {v : List Nat}
    {l : List (List String × List Nat)} (h : lookupFile l k = some v) :
    setFile k v l = l := by
  induction l with
  | nil => simp [lookupFile] at h
  | cons kv t ih =>
    by_cases hk : kv.1 = k
    · simp only [lookupFile, if_pos hk] at h
      obtain rfl : kv.2 = v := Option.some.inj h
      simp only [setFile, if_pos hk]
      rw [← hk]
    · simp only [lookupFile, if_neg hk] at h
      simp [setFile, hk, ih h]

theorem mem_fst_setFile {p : List String} (k : List String) (v : List Nat)
    {l : List (List String × List Nat)} (h : p ∈ l.map Prod.fst) :
    p ∈ (setFile k v l).map Prod.fst := by
  induction l with
  | nil => simp at h
  | cons kv t ih =>
    rw [List.map_cons, List.mem_cons] at h
    by_cases hk : kv.1 = k
    · simp only [setFile, if_pos hk, List.map_cons, List.mem_cons]
      rcases h with h | h
      · left; rw [h, hk]
      · right; exact h
    · simp only [setFile, if_neg hk, List.map_cons, List.mem_cons]
      rcases h with h | h
      · left; exact h
      · right; exact ih h

theorem lookup_isSome_of_mem {k : List String}
    {l : List (List String × List Nat)} (h : k ∈ l.map Prod.fst) :
    ∃ v, lookupFile l k = some v := by
  induction l with
  | nil => simp at h
  | cons kv t ih =>
    by_cases hk : kv.1 = k
    · exact ⟨kv.2, by simp [lookupFile, hk]⟩
    · rw [List.map_cons, List.mem_cons] at h
      rcases h with h | h
      · exact absurd h.symm hk
      · obtain ⟨v, hv⟩ := ih h
        exact ⟨v, by simp [lookupFile, hk, hv]⟩

theorem mem_of_lookup {k : List String} {v : List Nat}
    {l : List (List String × List Nat)} (h : lookupFile l k = some v) :
    k ∈ l.map Prod.fst := by
  induction l with
  | nil => simp [lookupFile] at h
  | cons kv t ih =>
    by_cases hk : kv.1 = k
    · rw [List.map_cons, List.mem_cons]; left; exact hk.symm
    · simp only [lookupFile, if_neg hk] at h
      rw [List.map_cons, List.mem_cons]; right; exact ih h

/-! ### Directory-listing lemmas -/

theorem mem_topFilesL {l : List (List String × List Nat)} {path g : String} :
    g ∈ topFilesL l path ↔ [path, g] ∈ l.map Prod.fst := by
  induction l with
  | nil => simp [topFilesL]
  | cons kv t ih =>
    obtain ⟨key, val⟩ := kv
    match key with
    | [] => simp [topFilesL, ih]
    | [a] => simp [topFilesL, ih]
    | [a, b] =>
      by_cases ha : a = path
      · subst ha
        simp [topFilesL, ih]
      · have ha' : ¬ path = a := fun hh => ha hh.symm
        simp [topFilesL, ha, ha', ih]
    | a :: b :: c :: t' => simp [topFilesL, ih]

theorem topFilesL_setFile (a b c : String) (v : List Nat)
    (l : List (List String × List Nat)) (path : String) :
    topFilesL (setFile [a, b, c] v l) path = topFilesL l path := by
  induction l with
  | nil => simp [setFile, topFilesL]
  | cons kv t ih =>
    by_cases hk : kv.1 = [a, b, c]
    · simp only [setFile, if_pos hk]
      obtain ⟨key, val⟩ := kv
      simp only at hk
      subst hk
      simp [topFilesL]
    · simp only [setFile, if_neg hk]
      obtain ⟨key, val⟩ := kv
      match key with
      | [] => simp [topFilesL, ih]
      | [x] => simp [topFilesL, ih]
      | [x, y] => simp only [topFilesL, ih]
      | x :: y :: z :: t' => simp [topFilesL, ih]

/-! ### Lemmas on the primitive operations -/

theorem cda_files (env : Env) (p : List String) (s : FS) :
    ((createDirAll env p s).1).files = s.files := by
  unfold createDirAll
  split
  · rfl
  · split
    · rfl
    · rfl

theorem cda_dirs_mono {d : List String} {s : FS} (env : Env) (p : List String)
    (h : d ∈ s.dirs) : d ∈ ((createDirAll env p s).1).dirs := by
  unfold createDirAll
  split
  · exact h
  · split
    · exact List.mem_cons_of_mem _ h
    · exact h

theorem cda_dirs_sub {d : List String} {env : Env} {p : List String} {s : FS}
    (h : d ∈ ((createDirAll env p s).1).dirs) :
    d ∈ s.dirs ∨ (d = p ∧ env.mkdirOk p = true) := by
  unfold createDirAll at h
  split at h
  · exact Or.inl h
  · split at h
    · rcases List.mem_cons.mp h with h | h
      · exact Or.inr ⟨h, by assumption⟩
      · exact Or.inl h
    · exact Or.inl h

theorem cda_self_mem {env : Env} {p : List String} (s : FS)
    (h : env.mkdirOk p = true) : p ∈ ((createDirAll env p s).1).dirs := by
  unfold createDirAll
  by_cases hd : p ∈ s.dirs
  · rw [if_pos hd]; exact hd
  · rw [if_neg hd, if_pos h]
    exact List.mem_cons_self _ _

theorem cda_mem_iff {env : Env} {p : List String} {s : FS} :
    p ∈ ((createDirAll env p s).1).dirs ↔ (p ∈ s.dirs ∨ env.mkdirOk p = true) := by
  constructor
  · intro h
    rcases cda_dirs_sub h with h | ⟨_, h⟩
    · exact Or.inl h
    · exact Or.inr h
  · rintro (h | h)
    · exact cda_dirs_mono env p h
    · exact cda_self_mem s h

theorem cda_eq_of {env : Env} {p : List String} {s : FS}
    (h : p ∈ s.dirs ∨ env.mkdirOk p = false) : (createDirAll env p s).1 = s := by
  unfold createDirAll
  split
  · rfl
  · split
    · rcases h with h | h
      · exact absurd h (by assumption)
      · rename_i hono
        rw [h] at hono
        exact absurd hono (by simp)
    · rfl

theorem cda_fail {env : Env} {p : List String} {s : FS}
    (h1 : p ∉ s.dirs) (h2 : env.mkdirOk p = false) :
    createDirAll env p s = (s, false) := by
  unfold createDirAll
  rw [if_neg h1, if_neg (by simp [h2])]

theorem cf_dirs (env : Env) (src dst : List String) (s : FS) :
    ((copyFile env src dst s).1).dirs = s.dirs := by
  rcases hl : lookupFile s.files src with _ | content
  · simp [copyFile, hl]
  · simp only [copyFile, hl]
    split
    · rfl
    · rfl

theorem cf_cases (env : Env) (src dst : List String) (s : FS) :
    (copyFile env src dst s).1 = s ∨
    ∃ content, lookupFile s.files src = some content ∧
      (copyFile env src dst s).1 = { s with files := setFile dst content s.files } := by
  rcases hl : lookupFile s.files src with _ | content
  · simp [copyFile, hl]
  · simp only [copyFile, hl]
    split
    · exact Or.inr ⟨content, rfl, rfl⟩
    · exact Or.inl rfl

theorem cf_lookup_ne {k dst : List String} (env : Env) (src : List String) (s : FS)
    (h : k ≠ dst) :
    lookupFile ((copyFile env src dst s).1).files k = lookupFile s.files k := by
  rcases cf_cases env src dst s with hc | ⟨content, _, hc⟩
  · rw [hc]
  · rw [hc]
    exact lookup_setFile_ne content s.files h

theorem cf_success {env : Env} {src dst : List String} {s : FS} {b : List Nat}
    (hsrc : lookupFile s.files src = some b) (hok : env.copyOk src dst = true)
    (hdir : dst.dropLast ∈ s.dirs) :
    (copyFile env src dst s).1.files = setFile dst b s.files := by
  simp only [copyFile, hsrc]
  rw [if_pos ⟨hok, hdir⟩]

theorem cf_eq_self {env : Env} {src dst : List String} {s : FS}
    (h : lookupFile s.files dst = lookupFile s.files src) :
    (copyFile env src dst s).1 = s := by
  rcases hl : lookupFile s.files src with _ | content
  · simp [copyFile, hl]
  · simp only [copyFile, hl]
    split
    · rw [hl] at h
      show ({ s with files := setFile dst content s.files } : FS) = s
      rw [setFile_self h]
    · rfl

theorem cf_fail {env : Env} {src dst : List String} {s : FS}
    (h : ¬(env.copyOk src dst = true ∧ dst.dropLast ∈ s.dirs)) :
    copyFile env src dst s = (s, false) := by
  rcases hl : lookupFile s.files src with _ | content
  · simp [copyFile, hl]
  · simp only [copyFile, hl]
    rw [if_neg h]

/-! ### Extension extraction -/

theorem splitChar_of_not_mem {sep : Char} {l : List Char} (h : sep ∉ l) :
    splitChar sep l = [l] := by
  induction l with
  | nil => rfl
  | cons c cs ih =>
    rw [List.mem_cons] at h
    push_neg at h
    have hc : ¬ c = sep := fun hh => h.1 hh.symm
    rw [splitChar, if_neg hc, ih h.2]

theorem lastSplitExt_of_not_mem {f : String} (h : '.' ∉ f.data) :
    lastSplitExt f = some f := by
  unfold lastSplitExt
  rw [splitChar_of_not_mem h]
  rfl

/-! ### State projections and characterisation of the loops -/

def placeFileSt (path file ext : String) (env : Env)
    (exts : List (String × List String)) (s : FS) : FS :=
  (placeFile path file ext env exts s).1

def stepSt (path : String) (env : Env) (exts : List (String × List String))
    (f : String) (s : FS) : FS :=
  (processOneFile path env exts f s).1

def runSt (path : String) (env : Env) (exts : List (String × List String))
    (L : List String) (s : FS) : FS :=
  (processFiles path env exts L s).1

theorem runSt_nil (path : String) (env : Env) (exts : List (String × List String))
    (s : FS) : runSt path env exts [] s = s := rfl

theorem runSt_cons (path : String) (env : Env) (exts : List (String × List String))
    (f : String) (L : List String) (s : FS) :
    runSt path env exts (f :: L) s = runSt path env exts L (stepSt path env exts f s) := rfl

/-- First category whose extension list contains the extension: what the
break-on-match walk of the inner loop selects. -/
def findCat (ext : String) : List (String × List String) → Option (String × List String)
  | [] => none
  | p :: rest => if ext ∈ p.2 then some p else findCat ext rest

theorem findCat_append {ext : String} {pre rest : List (String × List String)}
    {c : String} {l : List String} (hpre : ∀ p ∈ pre, ext ∉ p.2) (hl : ext ∈ l) :
    findCat ext (pre ++ (c, l) :: rest) = some (c, l) := by
  induction pre with
  | nil => simp [findCat, hl]
  | cons q pre ih =>
    have hq : ext ∉ q.2 := hpre q (List.mem_cons_self _ _)
    simp only [List.cons_append, findCat, if_neg hq]
    exact ih (fun p hp => hpre p (List.mem_cons_of_mem _ hp))

theorem placeFile_skip_pre {path file ext : String} {env : Env}
    {pre : List (String × List String)} (exts2 : List (String × List String)) {s : FS}
    (hpre : ∀ p ∈ pre, ext ∉ p.2) :
    placeFile path file ext env (pre ++ exts2) s = placeFile path file ext env exts2 s := by
  induction pre with
  | nil => rfl
  | cons q pre ih =>
    obtain ⟨c0, l0⟩ := q
    have hq : ext ∉ l0 := hpre (c0, l0) (List.mem_cons_self _ _)
    simp only [List.cons_append, placeFile, if_neg hq]
    exact ih (fun p hp => hpre p (List.mem_cons_of_mem _ hp))

theorem cda_isFile {env : Env} {p : List String} {s : FS} {q : List String}
    (h : s.isFile q) : ((createDirAll env p s).1).isFile q := by
  unfold FS.isFile at h ⊢
  rw [cda_files]
  exact h

theorem cda_pathExists {env : Env} {p : List String} {s : FS} {q : List String}
    (h : s.isFile q) : ((createDirAll env p s).1).pathExists q := by
  unfold FS.pathExists
  exact Or.inl (cda_isFile h)

theorem cf_isFile {env : Env} {src dst : List String} {s : FS} {q : List String}
    (h : s.isFile q) : ((copyFile env src dst s).1).isFile q := by
  unfold FS.isFile at h ⊢
  rcases cf_cases env src dst s with hc | ⟨content, _, hc⟩
  · rw [hc]; exact h
  · rw [hc]; exact mem_fst_setFile dst content h

/-- The state part of the inner loop, when the source file is present: the
first matching category gets a directory-creation attempt followed by a
copy attempt, and a file with no matching category leaves the state alone. -/
def placeSpec (path file ext : String) (env : Env)
    (exts : List (String × List String)) (s : FS) : FS :=
  match findCat ext exts with
  | none => s
  | some (c, _) =>
    (copyFile env [path, file] [path, c, file] (createDirAll env [path, c] s).1).1

def stepSpec (path : String) (env : Env) (exts : List (String × List String))
    (f : String) (s : FS) : FS :=
  match lastSplitExt f with
  | some ext => placeSpec path f ext env exts s
  | none => s

theorem placeSpec_none {ext : String} {exts : List (String × List String)}
    (path file : String) (env : Env) (s : FS) (hfc : findCat ext exts = none) :
    placeSpec path file ext env exts s = s := by
  simp [placeSpec, hfc]

theorem placeSpec_some {ext c : String} {l' : List String}
    {exts : List (String × List String)} (path file : String) (env : Env) (s : FS)
    (hfc : findCat ext exts = some (c, l')) :
    placeSpec path file ext env exts s =
      (copyFile env [path, file] [path, c, file] (createDirAll env [path, c] s).1).1 := by
  simp [placeSpec, hfc]

theorem stepSpec_ext {f ext : String} {env : Env} {exts : List (String × List String)}
    (path : String) (s : FS) (hle : lastSplitExt f = some ext) :
    stepSpec path env exts f s = placeSpec path f ext env exts s := by
  simp [stepSpec, hle]

theorem stepSpec_noext {f : String} {env : Env} {exts : List (String × List String)}
    (path : String) (s : FS) (hle : lastSplitExt f = none) :
    stepSpec path env exts f s = s := by
  simp [stepSpec, hle]

theorem placeFileSt_char {path file ext : String} {env : Env}
    {exts : List (String × List String)} {s : FS} (h : s.isFile [path, file]) :
    placeFileSt path file ext env exts s = placeSpec path file ext env exts s := by
  induction exts with
  | nil => rfl
  | cons q rest ih =>
    obtain ⟨c0, l0⟩ := q
    by_cases hm : ext ∈ l0
    · have hex : ((createDirAll env [path, c0] s).1).pathExists [path, file] :=
        cda_pathExists h
      have hfc : findCat ext ((c0, l0) :: rest) = some (c0, l0) := by
        simp [findCat, hm]
      rw [placeSpec_some path file env s hfc]
      simp only [placeFileSt, placeFile, if_pos hm, if_pos hex]
      rfl
    · have hfc : findCat ext ((c0, l0) :: rest) = findCat ext rest := by
        simp [findCat, hm]
      simp only [placeFileSt, placeFile, if_neg hm, placeSpec, hfc] at ih ⊢
      exact ih

theorem stepSt_char {path : String} {env : Env} {exts : List (String × List String)}
    {f : String} {s : FS} (h : s.isFile [path, f]) :
    stepSt path env exts f s = stepSpec path env exts f s := by
  rcases hle : lastSplitExt f with _ | ext
  · simp [stepSt, processOneFile, hle, stepSpec]
  · simp only [stepSt, processOneFile, hle, stepSpec]
    exact placeFileSt_char h

theorem stepSpec_isFile {path : String} {env : Env} {exts : List (String × List String)}
    {f : String} {s : FS} {q : List String} (h : s.isFile q) :
    (stepSpec path env exts f s).isFile q := by
  rcases hle : lastSplitExt f with _ | ext
  · rw [stepSpec_noext path s hle]; exact h
  · rw [stepSpec_ext path s hle]
    rcases hfc : findCat ext exts with _ | ⟨c, l'⟩
    · rw [placeSpec_none path f env s hfc]; exact h
    · rw [placeSpec_some path f env s hfc]
      exact cf_isFile (cda_isFile h)

theorem stepSpec_dirs_mono {path : String} {env : Env} {exts : List (String × List String)}
    {f : String} {s : FS} {d : List String} (h : d ∈ s.dirs) :
    d ∈ (stepSpec path env exts f s).dirs := by
  rcases hle : lastSplitExt f with _ | ext
  · rw [stepSpec_noext path s hle]; exact h
  · rw [stepSpec_ext path s hle]
    rcases hfc : findCat ext exts with _ | ⟨c, l'⟩
    · rw [placeSpec_none path f env s hfc]; exact h
    · rw [placeSpec_some path f env s hfc, cf_dirs]
      exact cda_dirs_mono env _ h

theorem stepSpec_dirs_sub {path : String} {env : Env} {exts : List (String × List String)}
    {f : String} {s : FS} {d : List String}
    (h : d ∈ (stepSpec path env exts f s).dirs) :
    d ∈ s.dirs ∨ env.mkdirOk d = true := by
  rcases hle : lastSplitExt f with _ | ext
  · rw [stepSpec_noext path s hle] at h; exact Or.inl h
  · rw [stepSpec_ext path s hle] at h
    rcases hfc : findCat ext exts with _ | ⟨c, l'⟩
    · rw [placeSpec_none path f env s hfc] at h; exact Or.inl h
    · rw [placeSpec_some path f env s hfc, cf_dirs] at h
      rcases cda_dirs_sub h with h2 | ⟨he, h2⟩
      · exact Or.inl h2
      · right; rw [he]; exact h2

theorem pair_ne_triple (a b x y z : String) : [a, b] ≠ [x, y, z] := by simp

theorem stepSpec_lookup_ne {path : String} {env : Env} {exts : List (String × List String)}
    {f : String} {s : FS} {k : List String} (hk : ∀ c, k ≠ [path, c, f]) :
    lookupFile (stepSpec path env exts f s).files k = lookupFile s.files k := by
  rcases hle : lastSplitExt f with _ | ext
  · rw [stepSpec_noext path s hle]
  · rw [stepSpec_ext path s hle]
    rcases hfc : findCat ext exts with _ | ⟨c, l'⟩
    · rw [placeSpec_none path f env s hfc]
    · rw [placeSpec_some path f env s hfc, cf_lookup_ne _ _ _ (hk c), cda_files]

theorem stepSpec_lookup_pair {path : String} {env : Env}
    {exts : List (String × List String)} {f : String} {s : FS} (a x : String) :
    lookupFile (stepSpec path env exts f s).files [a, x] = lookupFile s.files [a, x] :=
  stepSpec_lookup_ne (fun c => pair_ne_triple a x path c f)

theorem stepSpec_topFiles {path : String} {env : Env}
    {exts : List (String × List String)} {f : String} {s : FS} (path' : String) :
    topFilesL (stepSpec path env exts f s).files path' = topFilesL s.files path' := by
  rcases hle : lastSplitExt f with _ | ext
  · rw [stepSpec_noext path s hle]
  · rw [stepSpec_ext path s hle]
    rcases hfc : findCat ext exts with _ | ⟨c, l'⟩
    · rw [placeSpec_none path f env s hfc]
    · rw [placeSpec_some path f env s hfc]
      rcases cf_cases env [path, f] [path, c, f] (createDirAll env [path, c] s).1 with
        hc | ⟨content, _, hc⟩
      · rw [hc, cda_files]
      · rw [hc]
        show topFilesL (setFile [path, c, f] content _) path' = _
        rw [cda_files, topFilesL_setFile]

/-! ### The after-processing invariant of a candidate file -/

/-- After a candidate file has been processed once, the state is settled
for it: the destination directory of its first matching category exists
unless its creation is impossible, and, when the copy can succeed, the
destination already carries the source bytes. -/
def doneFile (path : String) (env : Env) (exts : List (String × List String))
    (f : String) (s : FS) : Prop :=
  match lastSplitExt f with
  | none => True
  | some ext =>
    match findCat ext exts with
    | none => True
    | some (c, _) =>
      ([path, c] ∈ s.dirs ∨ env.mkdirOk [path, c] = false) ∧
      ([path, c] ∈ s.dirs → env.copyOk [path, f] [path, c, f] = true →
        lookupFile s.files [path, c, f] = lookupFile s.files [path, f])

theorem doneFile_triv1 {f : String} (path : String) (env : Env)
    (exts : List (String × List String)) (s : FS) (hle : lastSplitExt f = none) :
    doneFile path env exts f s := by
  simp [doneFile, hle]

theorem doneFile_triv2 {f ext : String} {exts : List (String × List String)}
    (path : String) (env : Env) (s : FS) (hle : lastSplitExt f = some ext)
    (hfc : findCat ext exts = none) : doneFile path env exts f s := by
  simp [doneFile, hle, hfc]

theorem doneFile_iff_some {f ext c : String} {l' : List String}
    {exts : List (String × List String)} (path : String) (env : Env) (s : FS)
    (hle : lastSplitExt f = some ext) (hfc : findCat ext exts = some (c, l')) :
    doneFile path env exts f s ↔
      (([path, c] ∈ s.dirs ∨ env.mkdirOk [path, c] = false) ∧
       ([path, c] ∈ s.dirs → env.copyOk [path, f] [path, c, f] = true →
         lookupFile s.files [path, c, f] = lookupFile s.files [path, f])) := by
  simp [doneFile, hle, hfc]

theorem stepSpec_done {path : String} {env : Env} {exts : List (String × List String)}
    {f : String} {s : FS} (h : s.isFile [path, f]) :
    doneFile path env exts f (stepSpec path env exts f s) := by
  rcases hle : lastSplitExt f with _ | ext
  · exact doneFile_triv1 path env exts _ hle
  · rcases hfc : findCat ext exts with _ | ⟨c, l'⟩
    · exact doneFile_triv2 path env _ hle hfc
    · rw [doneFile_iff_some path env _ hle hfc]
      rw [stepSpec_ext path s hle, placeSpec_some path f env s hfc]
      constructor
      · cases hmk : env.mkdirOk [path, c] with
        | false => exact Or.inr rfl
        | true =>
          left
          rw [cf_dirs]
          exact cda_self_mem s hmk
      · intro hmem hcp
        have hmem1 : [path, c] ∈ (createDirAll env [path, c] s).1.dirs := by
          rw [cf_dirs] at hmem; exact hmem
        have h1 : (createDirAll env [path, c] s).1.isFile [path, f] := cda_isFile h
        obtain ⟨b, hb⟩ := lookup_isSome_of_mem h1
        have hfl := cf_success hb hcp hmem1
        rw [hfl, lookup_setFile_self,
            lookup_setFile_ne _ _ (pair_ne_triple path f path c f), hb]

theorem stepSpec_preserves_done {path g f : String} {env : Env}
    {exts : List (String × List String)} {s : FS}
    (hd : doneFile path env exts f s) :
    doneFile path env exts f (stepSpec path env exts g s) := by
  rcases hle : lastSplitExt f with _ | ext
  · exact doneFile_triv1 path env exts _ hle
  · rcases hfc : findCat ext exts with _ | ⟨c, l'⟩
    · exact doneFile_triv2 path env _ hle hfc
    · rw [doneFile_iff_some path env _ hle hfc] at hd
      rw [doneFile_iff_some path env _ hle hfc]
      obtain ⟨hd1, hd2⟩ := hd
      constructor
      · rcases hd1 with hmem | hmk
        · exact Or.inl (stepSpec_dirs_mono hmem)
        · exact Or.inr hmk
      · intro hmem' hcp
        have hmem : [path, c] ∈ s.dirs := by
          rcases stepSpec_dirs_sub hmem' with h2 | h2
          · exact h2
          · rcases hd1 with h3 | h3
            · exact h3
            · rw [h3] at h2
              exact absurd h2 (by simp)
        have hval := hd2 hmem hcp
        have hsrc : lookupFile (stepSpec path env exts g s).files [path, f] =
            lookupFile s.files [path, f] := stepSpec_lookup_pair path f
        rw [hsrc]
        by_cases hgf : g = f
        · subst hgf
          rw [stepSpec_ext path s hle, placeSpec_some path g env s hfc]
          rcases cf_cases env [path, g] [path, c, g] (createDirAll env [path, c] s).1 with
            hc2 | ⟨content, hcont, hc2⟩
          · rw [hc2]
            show lookupFile (createDirAll env [path, c] s).1.files [path, c, g] = _
            rw [cda_files]
            exact hval
          · rw [hc2]
            show lookupFile (setFile [path, c, g] content _) [path, c, g] = _
            rw [lookup_setFile_self]
            rw [cda_files] at hcont
            exact hcont.symm
        · have hne : ∀ c', ([path, c, f] : List String) ≠ [path, c', g] := by
            intro c' he
            have h2 : c = c' ∧ f = g := by simpa using he
            exact hgf h2.2.symm
          rw [stepSpec_lookup_ne hne]
          exact hval

theorem stepSpec_id_of_done {path f : String} {env : Env}
    {exts : List (String × List String)} {s : FS}
    (hd : doneFile path env exts f s) : stepSpec path env exts f s = s := by
  rcases hle : lastSplitExt f with _ | ext
  · exact stepSpec_noext path s hle
  · rw [stepSpec_ext path s hle]
    rcases hfc : findCat ext exts with _ | ⟨c, l'⟩
    · exact placeSpec_none path f env s hfc
    · rw [placeSpec_some path f env s hfc]
      rw [doneFile_iff_some path env _ hle hfc] at hd
      obtain ⟨hd1, hd2⟩ := hd
      have hs1 : (createDirAll env [path, c] s).1 = s := cda_eq_of hd1
      rw [hs1]
      by_cases hc2 : env.copyOk [path, f] [path, c, f] = true ∧ [path, c] ∈ s.dirs
      · exact cf_eq_self (hd2 hc2.2 hc2.1)
      · rw [cf_fail (fun hh => hc2 ⟨hh.1, hh.2⟩)]

/-! ### The candidate-list fold -/

def runSpec (path : String) (env : Env) (exts : List (String × List String)) :
    List String → FS → FS
  | [], s => s
  | f :: L, s => runSpec path env exts L (stepSpec path env exts f s)

theorem runSpec_cons (path : String) (env : Env) (exts : List (String × List String))
    (f : String) (L : List String) (s : FS) :
    runSpec path env exts (f :: L) s =
      runSpec path env exts L (stepSpec path env exts f s) := rfl

theorem runSt_eq_runSpec {path : String} {env : Env}
    {exts : List (String × List String)} {L : List String} {s : FS}
    (HL : ∀ g ∈ L, s.isFile [path, g]) :
    runSt path env exts L s = runSpec path env exts L s := by
  induction L generalizing s with
  | nil => rfl
  | cons f L ih =>
    rw [runSt_cons, runSpec_cons, stepSt_char (HL f (List.mem_cons_self _ _))]
    exact ih (fun g hg => stepSpec_isFile (HL g (List.mem_cons_of_mem _ hg)))

theorem runSpec_isFile {path : String} {env : Env}
    {exts : List (String × List String)} {L : List String} {s : FS}
    {q : List String} (h : s.isFile q) : (runSpec path env exts L s).isFile q := by
  induction L generalizing s with
  | nil => exact h
  | cons f L ih => exact ih (stepSpec_isFile h)

theorem runSpec_preserves_done {path f : String} {env : Env}
    {exts : List (String × List String)} {L : List String} {s : FS}
    (hd : doneFile path env exts f s) :
    doneFile path env exts f (runSpec path env exts L s) := by
  induction L generalizing s with
  | nil => exact hd
  | cons g L ih => exact ih (stepSpec_preserves_done hd)

theorem runSpec_done {path : String} {env : Env}
    {exts : List (String × List String)} {L : List String} {s : FS}
    (HL : ∀ g ∈ L, s.isFile [path, g]) :
    ∀ f ∈ L, doneFile path env exts f (runSpec path env exts L s) := by
  induction L generalizing s with
  | nil => intro f hf; simp at hf
  | cons g L ih =>
    intro f hf
    rw [runSpec_cons]
    rcases List.mem_cons.mp hf with rfl | hf2
    · exact runSpec_preserves_done (stepSpec_done (HL f (List.mem_cons_self _ _)))
    · exact ih (fun g' hg' => stepSpec_isFile (HL g' (List.mem_cons_of_mem _ hg'))) f hf2

theorem runSpec_id {path : String} {env : Env}
    {exts : List (String × List String)} {L : List String} {s : FS}
    (hall : ∀ f ∈ L, stepSpec path env exts f s = s) :
    runSpec path env exts L s = s := by
  induction L with
  | nil => rfl
  | cons f L ih =>
    rw [runSpec_cons, hall f (List.mem_cons_self _ _)]
    exact ih (fun g hg => hall g (List.mem_cons_of_mem _ hg))

theorem runSpec_topFiles {path : String} {env : Env}
    {exts : List (String × List String)} {L : List String} {s : FS} (path' : String) :
    topFilesL (runSpec path env exts L s).files path' = topFilesL s.files path' := by
  induction L generalizing s with
  | nil => rfl
  | cons f L ih =>
    rw [runSpec_cons, ih, stepSpec_topFiles]

theorem runSpec_lookup_pair {path : String} {env : Env}
    {exts : List (String × List String)} {L : List String} {s : FS} (a x : String) :
    lookupFile (runSpec path env exts L s).files [a, x] = lookupFile s.files [a, x] := by
  induction L generalizing s with
  | nil => rfl
  | cons f L ih =>
    rw [runSpec_cons, ih, stepSpec_lookup_pair]

theorem topFiles_sources {s : FS} {path : String} :
    ∀ g ∈ topFilesL s.files path, s.isFile [path, g] := by
  intro g hg
  unfold FS.isFile
  exact mem_topFilesL.mp hg

/-! ### The copied-file invariant -/

/-- The pair of facts established for a candidate once it has been placed:
the source bytes are still at the top level and the destination of its
category carries the same bytes. -/
def KInv (path f c : String) (b : List Nat) (s : FS) : Prop :=
  lookupFile s.files [path, f] = some b ∧ lookupFile s.files [path, c, f] = some b

theorem stepSpec_establishes_K {path f ext c : String} {l' : List String}
    {env : Env} {exts : List (String × List String)} {s : FS} {b : List Nat}
    (hle : lastSplitExt f = some ext) (hfc : findCat ext exts = some (c, l'))
    (hmk : env.mkdirOk [path, c] = true)
    (hcp : env.copyOk [path, f] [path, c, f] = true)
    (hb : lookupFile s.files [path, f] = some b) :
    KInv path f c b (stepSpec path env exts f s) := by
  rw [stepSpec_ext path s hle, placeSpec_some path f env s hfc]
  have hb1 : lookupFile (createDirAll env [path, c] s).1.files [path, f] = some b := by
    rw [cda_files]; exact hb
  have hdir : ([path, c, f] : List String).dropLast ∈ (createDirAll env [path, c] s).1.dirs :=
    cda_self_mem s hmk
  have hfl := cf_success hb1 hcp hdir
  constructor
  · show lookupFile (copyFile env [path, f] [path, c, f] _).1.files [path, f] = some b
    rw [hfl, lookup_setFile_ne _ _ (pair_ne_triple path f path c f), hb1]
  · show lookupFile (copyFile env [path, f] [path, c, f] _).1.files [path, c, f] = some b
    rw [hfl, lookup_setFile_self]

theorem stepSpec_preserves_K {path g f c : String} {env : Env}
    {exts : List (String × List String)} {s : FS} {b : List Nat}
    (hK : KInv path f c b s) : KInv path f c b (stepSpec path env exts g s) := by
  obtain ⟨h1, h2⟩ := hK
  constructor
  · rw [stepSpec_lookup_pair path f]; exact h1
  · by_cases hgf : g = f
    · subst hgf
      rcases hleg : lastSplitExt g with _ | extg
      · rw [stepSpec_noext path s hleg]; exact h2
      · rw [stepSpec_ext path s hleg]
        rcases hfcg : findCat extg exts with _ | ⟨cg, lg⟩
        · rw [placeSpec_none path g env s hfcg]; exact h2
        · rw [placeSpec_some path g env s hfcg]
          rcases cf_cases env [path, g] [path, cg, g] (createDirAll env [path, cg] s).1 with
            hc2 | ⟨content, hcont, hc2⟩
          · rw [hc2]
            show lookupFile (createDirAll env [path, cg] s).1.files [path, c, g] = some b
            rw [cda_files]
            exact h2
          · rw [hc2]
            show lookupFile (setFile [path, cg, g] content _) [path, c, g] = some b
            rw [cda_files] at hcont
            by_cases hcc : cg = c
            · subst hcc
              rw [lookup_setFile_self]
              rw [h1] at hcont
              exact hcont.symm
            · have hne : ([path, c, g] : List String) ≠ [path, cg, g] := by
                intro he
                have h3 : c = cg ∧ g = g := by simpa using he
                exact hcc h3.1.symm
              rw [lookup_setFile_ne _ _ hne, cda_files]
              exact h2
    · have hne : ∀ c', ([path, c, f] : List String) ≠ [path, c', g] := by
        intro c' he
        have h3 : c = c' ∧ f = g := by simpa using he
        exact hgf h3.2.symm
      rw [stepSpec_lookup_ne hne]
      exact h2

theorem runSpec_preserves_K {path f c : String} {env : Env}
    {exts : List (String × List String)} {L : List String} {s : FS} {b : List Nat}
    (hK : KInv path f c b s) : KInv path f c b (runSpec path env exts L s) := by
  induction L generalizing s with
  | nil => exact hK
  | cons g L ih => exact ih (stepSpec_preserves_K hK)

theorem runSpec_establishes_K {path f ext c : String} {l' : List String}
    {env : Env} {exts : List (String × List String)} {L : List String}
    {s : FS} {b : List Nat}
    (hfL : f ∈ L) (hle : lastSplitExt f = some ext)
    (hfc : findCat ext exts = some (c, l'))
    (hmk : env.mkdirOk [path, c] = true)
    (hcp : env.copyOk [path, f] [path, c, f] = true)
    (hb : lookupFile s.files [path, f] = some b) :
    KInv path f c b (runSpec path env exts L s) := by
  induction L generalizing s with
  | nil => simp at hfL
  | cons g L ih =>
    rw [runSpec_cons]
    rcases List.mem_cons.mp hfL with rfl | hf2
    · exact runSpec_preserves_K (stepSpec_establishes_K hle hfc hmk hcp hb)
    · exact ih hf2 (by rw [stepSpec_lookup_pair path f]; exact hb)

/-! ### Unfolding lemmas for the top-level entry point -/

theorem organize_execute_empty {o : Organize} {env : Env} {s : FS}
    (h : o.path.isEmpty = true) :
    Organize.execute o env s = (ExecResult.err ErrKind.invalidInput, s, []) := by
  simp [Organize.execute, h]

theorem organize_execute_ext {exts : List (String × List String)} {par : Bool}
    {path : String} {env : Env} {s : FS}
    (hp : path.isEmpty = false) (hrd : env.readDirOk path = true) :
    Organize.execute ⟨⟨.Extension exts, par⟩, path⟩ env s =
      (ExecResult.ok, (processFiles path env exts (topFiles s path) s).1,
       Event.readDirEv path :: (processFiles path env exts (topFiles s path) s).2) := by
  simp [Organize.execute, hp, OrganizeMethod.execute, OrganizeMethod.get_files, hrd]

theorem organize_execute_ext_noread {exts : List (String × List String)} {par : Bool}
    {path : String} {env : Env} {s : FS}
    (hp : path.isEmpty = false) (hrd : env.readDirOk path = false) :
    Organize.execute ⟨⟨.Extension exts, par⟩, path⟩ env s =
      (ExecResult.ok, s, [Event.readDirEv path]) := by
  simp [Organize.execute, hp, OrganizeMethod.execute, OrganizeMethod.get_files, hrd,
    processFiles]

theorem organize_execute_state {exts : List (String × List String)} {par : Bool}
    {path : String} {env : Env} {s : FS}
    (hp : path.isEmpty = false) (hrd : env.readDirOk path = true) :
    (Organize.execute ⟨⟨.Extension exts, par⟩, path⟩ env s).2.1 =
      runSt path env exts (topFiles s path) s := by
  rw [organize_execute_ext hp hrd]
  rfl

theorem fileName_pair (a b : String) : fileName [a, b] = b := rfl

/-! ### Concrete data used by the witnesses and counterexamples -/

def fs0 : FS := ⟨[], [(["d", "a.pdf"], [1, 2, 3])]⟩

def extsDocs : List (String × List String) := [("Documents", ["pdf"])]

def envNoMkdir : Env := ⟨fun _ => true, fun _ => false, fun _ _ => true⟩

def envNoRead : Env := ⟨fun _ => false, fun _ => true, fun _ _ => true⟩

/-! ### The claims -/

/-- C2: for every configuration, environment and state, `Organize.execute`
returns success exactly when the path is non-empty; however many per-file
operations the environment makes fail, the result is still success. -/
theorem c2_success_iff_nonempty_path (o : Organize) (env : Env) (s : FS) :
    ((Organize.execute o env s).1).isOk = !o.path.isEmpty := by
  by_cases hp : o.path.isEmpty
  · simp [Organize.execute, hp, ExecResult.isOk]
  · simp [Organize.execute, hp, ExecResult.isOk]

/-- C3: calling `Organize.execute` with an empty path returns the
invalid-input error, leaves the file system untouched and performs no
file-system call at all (the event trace is empty). -/
theorem c3_empty_path_error_no_mutation (o : Organize) (env : Env) (s : FS)
    (h : o.path = "") :
    Organize.execute o env s = (ExecResult.err ErrKind.invalidInput, s, []) := by
  apply organize_execute_empty
  rw [h]
  rfl

theorem c3_empty_path_error_no_mutation_wit :
    Organize.execute ⟨⟨.Extension extsDocs, true⟩, ""⟩ Env.allOk fs0 =
      (ExecResult.err ErrKind.invalidInput, fs0, []) :=
  c3_empty_path_error_no_mutation _ _ _ rfl

/-- C7: with the `Date`, `Alphabetical` or `Size` method and a non-empty
path, `Organize.execute` succeeds while enumerating no candidate, creating
no folder and copying no file: the state is unchanged and the trace empty. -/
theorem c7_other_methods_noop (o : Organize) (env : Env) (s : FS)
    (hm : o.options.method = .Date ∨ o.options.method = .Alphabetical ∨
      o.options.method = .Size)
    (hp : o.path.isEmpty = false) :
    Organize.execute o env s = (ExecResult.ok, s, []) := by
  rcases hm with hm | hm | hm <;>
    simp [Organize.execute, hp, OrganizeMethod.execute, OrganizeMethod.get_files, hm]

theorem c7_other_methods_noop_wit :
    Organize.execute ⟨⟨.Date, true⟩, "d"⟩ Env.allOk fs0 = (ExecResult.ok, fs0, []) :=
  c7_other_methods_noop _ _ _ (Or.inl rfl) (by decide)

/-- C8: when the directory cannot be enumerated, the `Extension` run sees
zero candidates: `Organize.execute` still succeeds, the state is unchanged,
and the only event is the attempted directory listing. -/
theorem c8_read_failure_trivial_success (exts : List (String × List String))
    (par : Bool) (path : String) (env : Env) (s : FS)
    (hp : path.isEmpty = false) (hrd : env.readDirOk path = false) :
    Organize.execute ⟨⟨.Extension exts, par⟩, path⟩ env s =
      (ExecResult.ok, s, [Event.readDirEv path]) :=
  organize_execute_ext_noread hp hrd

theorem c8_read_failure_trivial_success_wit :
    Organize.execute ⟨⟨.Extension extsDocs, true⟩, "d"⟩ envNoRead fs0 =
      (ExecResult.ok, fs0, [Event.readDirEv "d"]) :=
  c8_read_failure_trivial_success extsDocs true "d" envNoRead fs0 (by decide) rfl

/-- C10: the parallel flag is taken and ignored by the execution logic:
for every method, path, environment and state, running with the flag set
and with the flag cleared produces identical results and effects. -/
theorem c10_parallel_flag_irrelevant (m : OrganizeMethod) (path : String)
    (env : Env) (s : FS) :
    Organize.execute ⟨⟨m, true⟩, path⟩ env s =
      Organize.execute ⟨⟨m, false⟩, path⟩ env s := rfl

/-- C1 counterexample: the claim says a candidate whose name has no dot is
never matched and never copied, for every configuration.  The source
extracts the extension with `split('.').last()`, which on the dotless name
`pdf` yields `pdf` itself, so with a category listing `pdf` the file is
matched and copied: after `execute` the destination file exists. -/
theorem c1_counterexample :
    ('.' ∉ ("pdf" : String).data) ∧
    FS.getFile (Organize.execute ⟨⟨.Extension extsDocs, true⟩, "d"⟩ Env.allOk
      ⟨[], [(["d", "pdf"], [1])]⟩).2.1 ["d", "Documents", "pdf"] = some [1] := by
  constructor
  · decide
  · decide

/-- C1 (amended): a candidate file name with no dot has its entire name
taken as the extracted extension; such a file is never matched to any
category and never copied provided its whole name occurs in no category
extension list, in which case its processing changes nothing and emits no
event. -/
theorem c1_dotless_unlisted_skipped (path : String) (env : Env)
    (exts : List (String × List String)) (f : String) (s : FS)
    (hdot : '.' ∉ f.data) (hun : ∀ p ∈ exts, f ∉ p.2) :
    processOneFile path env exts f s = (s, []) := by
  have hle : lastSplitExt f = some f := lastSplitExt_of_not_mem hdot
  simp only [processOneFile, hle]
  have hexts : exts = exts ++ [] := (List.append_nil exts).symm
  rw [hexts, placeFile_skip_pre [] hun]
  rfl

theorem c1_dotless_unlisted_skipped_wit :
    processOneFile "d" Env.allOk extsDocs "nodot" fs0 = (fs0, []) :=
  c1_dotless_unlisted_skipped "d" Env.allOk extsDocs "nodot" fs0 (by decide) (by decide)

/-- C5: when the extracted extension of a present candidate occurs in the
extension lists of several categories, the walk stops at the first match:
the result equals the walk over the first matching category alone (the
later categories are never evaluated), exactly one copy is attempted, and
its destination is the folder of that first category. -/
theorem c5_first_match_wins (path : String) (env : Env)
    (pre rest : List (String × List String)) (c : String) (l : List String)
    (f ext : String) (s : FS)
    (hle : lastSplitExt f = some ext) (hpre : ∀ p ∈ pre, ext ∉ p.2)
    (hl : ext ∈ l) (hf : s.isFile [path, f]) :
    processOneFile path env (pre ++ (c, l) :: rest) f s =
      processOneFile path env [(c, l)] f s ∧
    (processOneFile path env (pre ++ (c, l) :: rest) f s).2.countP Event.isCopy = 1 ∧
    Event.copyEv [path, f] [path, c, f] ∈
      (processOneFile path env (pre ++ (c, l) :: rest) f s).2 := by
  have hex : ((createDirAll env [path, c] s).1).pathExists [path, f] :=
    cda_pathExists hf
  simp only [processOneFile, hle]
  rw [placeFile_skip_pre ((c, l) :: rest) hpre]
  simp only [placeFile, if_pos hl, if_pos hex, fileName_pair, List.cons_append,
    List.nil_append]
  refine ⟨trivial, ?_, ?_⟩
  · cases h1 : (createDirAll env [path, c] s).2 <;>
      cases h2 : (copyFile env [path, f] [path, c, f] (createDirAll env [path, c] s).1).2 <;>
      simp [Event.isCopy]
  · cases h1 : (createDirAll env [path, c] s).2 <;>
      cases h2 : (copyFile env [path, f] [path, c, f] (createDirAll env [path, c] s).1).2 <;>
      simp

theorem c5_first_match_wins_wit :
    (processOneFile "d" Env.allOk ([("Audios", ["mp3"])] ++ ("Documents", ["pdf"]) ::
        [("Other", ["pdf"])]) "a.pdf" fs0 =
      processOneFile "d" Env.allOk [("Documents", ["pdf"])] "a.pdf" fs0) ∧
    (processOneFile "d" Env.allOk ([("Audios", ["mp3"])] ++ ("Documents", ["pdf"]) ::
        [("Other", ["pdf"])]) "a.pdf" fs0).2.countP Event.isCopy = 1 ∧
    Event.copyEv ["d", "a.pdf"] ["d", "Documents", "a.pdf"] ∈
      (processOneFile "d" Env.allOk ([("Audios", ["mp3"])] ++ ("Documents", ["pdf"]) ::
        [("Other", ["pdf"])]) "a.pdf" fs0).2 :=
  c5_first_match_wins "d" Env.allOk [("Audios", ["mp3"])] [("Other", ["pdf"])]
    "Documents" ["pdf"] "a.pdf" "pdf" fs0 (by decide) (by decide) (by decide) (by decide)

/-- C6 counterexample: the claim says that when the destination folder
cannot be created, the placement is abandoned and no copy of that file is
attempted.  In the source the failed `create_dir_all` only prints a
diagnostic and falls through, so with an environment in which every
directory creation fails, the trace of `execute` holds both the
creation-failure diagnostic and the copy attempt for the same file. -/
theorem c6_counterexample :
    Event.createDirFailedDiag ["d", "Documents"] ∈
      (Organize.execute ⟨⟨.Extension extsDocs, true⟩, "d"⟩ envNoMkdir fs0).2.2 ∧
    Event.copyEv ["d", "a.pdf"] ["d", "Documents", "a.pdf"] ∈
      (Organize.execute ⟨⟨.Extension extsDocs, true⟩, "d"⟩ envNoMkdir fs0).2.2 := by
  constructor
  · decide
  · decide

/-- C6 (amended): when creation of the destination folder of a matched,
present file fails, a diagnostic is emitted and the copy of that file is
nevertheless still attempted; the copy then fails against the missing
folder with its own diagnostic, the state is left unchanged, and
processing continues with the next candidate file. -/
theorem c6_mkdir_failure_copy_still_attempted (path : String) (env : Env)
    (pre rest : List (String × List String)) (c : String) (l : List String)
    (f ext : String) (s : FS) (L : List String)
    (hle : lastSplitExt f = some ext) (hpre : ∀ p ∈ pre, ext ∉ p.2) (hl : ext ∈ l)
    (hf : s.isFile [path, f]) (hnd : [path, c] ∉ s.dirs)
    (hmk : env.mkdirOk [path, c] = false) :
    processOneFile path env (pre ++ (c, l) :: rest) f s =
      (s, [Event.createDirEv [path, c], Event.createDirFailedDiag [path, c],
           Event.copyEv [path, f] [path, c, f],
           Event.copyFailedDiag f [path, c, f]]) ∧
    processFiles path env (pre ++ (c, l) :: rest) (f :: L) s =
      ((processFiles path env (pre ++ (c, l) :: rest) L s).1,
       [Event.createDirEv [path, c], Event.createDirFailedDiag [path, c],
        Event.copyEv [path, f] [path, c, f], Event.copyFailedDiag f [path, c, f]] ++
       (processFiles path env (pre ++ (c, l) :: rest) L s).2) := by
  have hcda : createDirAll env [path, c] s = (s, false) := cda_fail hnd hmk
  have hex : (s : FS).pathExists [path, f] := Or.inl hf
  have hcf : copyFile env [path, f] [path, c, f] s = (s, false) :=
    cf_fail (fun hh => hnd hh.2)
  have h1 : processOneFile path env (pre ++ (c, l) :: rest) f s =
      (s, [Event.createDirEv [path, c], Event.createDirFailedDiag [path, c],
           Event.copyEv [path, f] [path, c, f],
           Event.copyFailedDiag f [path, c, f]]) := by
    simp only [processOneFile, hle]
    rw [placeFile_skip_pre ((c, l) :: rest) hpre]
    simp only [placeFile, if_pos hl, hcda, fileName_pair, List.cons_append,
      List.nil_append, if_pos hex, hcf]
    simp
  refine ⟨h1, ?_⟩
  simp only [processFiles, h1]

theorem c6_mkdir_failure_copy_still_attempted_wit :
    processOneFile "d" envNoMkdir ([] ++ ("Documents", ["pdf"]) :: []) "a.pdf" fs0 =
      (fs0, [Event.createDirEv ["d", "Documents"],
             Event.createDirFailedDiag ["d", "Documents"],
             Event.copyEv ["d", "a.pdf"] ["d", "Documents", "a.pdf"],
             Event.copyFailedDiag "a.pdf" ["d", "Documents", "a.pdf"]]) ∧
    processFiles "d" envNoMkdir ([] ++ ("Documents", ["pdf"]) :: []) ("a.pdf" :: ["b.png"]) fs0 =
      ((processFiles "d" envNoMkdir ([] ++ ("Documents", ["pdf"]) :: []) ["b.png"] fs0).1,
       [Event.createDirEv ["d", "Documents"],
        Event.createDirFailedDiag ["d", "Documents"],
        Event.copyEv ["d", "a.pdf"] ["d", "Documents", "a.pdf"],
        Event.copyFailedDiag "a.pdf" ["d", "Documents", "a.pdf"]] ++
       (processFiles "d" envNoMkdir ([] ++ ("Documents", ["pdf"]) :: []) ["b.png"] fs0).2) :=
  c6_mkdir_failure_copy_still_attempted "d" envNoMkdir [] [] "Documents" ["pdf"]
    "a.pdf" "pdf" fs0 ["b.png"] (by decide) (by decide) (by decide) (by decide)
    (by decide) rfl

/-- C4: over a fault-free environment and a non-empty path, every present
candidate file whose extracted extension matches exactly one category of
the `Extension` configuration is, after `execute`, present byte-for-byte
at the destination of that category, and the original file is still
present at the top level with the same bytes (copy, not move). -/
theorem c4_unique_match_copied (exts pre rest : List (String × List String))
    (c : String) (l : List String) (par : Bool) (path f ext : String)
    (b : List Nat) (s : FS)
    (hp : path.isEmpty = false) (hle : lastSplitExt f = some ext)
    (hexs : exts = pre ++ (c, l) :: rest)
    (hpre : ∀ p ∈ pre, ext ∉ p.2) (hl : ext ∈ l) (_hrest : ∀ p ∈ rest, ext ∉ p.2)
    (hb : FS.getFile s [path, f] = some b) :
    FS.getFile (Organize.execute ⟨⟨.Extension exts, par⟩, path⟩ Env.allOk s).2.1
      [path, c, f] = some b ∧
    FS.getFile (Organize.execute ⟨⟨.Extension exts, par⟩, path⟩ Env.allOk s).2.1
      [path, f] = some b := by
  subst hexs
  have hrd : Env.allOk.readDirOk path = true := rfl
  have hfc : findCat ext (pre ++ (c, l) :: rest) = some (c, l) := findCat_append hpre hl
  have hsrc : lookupFile s.files [path, f] = some b := hb
  have hfL : f ∈ topFiles s path := mem_topFilesL.mpr (mem_of_lookup hsrc)
  have HL : ∀ g ∈ topFiles s path, s.isFile [path, g] := topFiles_sources
  have hK : KInv path f c b
      (runSpec path Env.allOk (pre ++ (c, l) :: rest) (topFiles s path) s) :=
    runSpec_establishes_K hfL hle hfc rfl rfl hsrc
  have hrun : runSt path Env.allOk (pre ++ (c, l) :: rest) (topFiles s path) s =
      runSpec path Env.allOk (pre ++ (c, l) :: rest) (topFiles s path) s :=
    runSt_eq_runSpec HL
  rw [organize_execute_state hp hrd, hrun]
  exact ⟨hK.2, hK.1⟩

theorem c4_unique_match_copied_wit :
    FS.getFile (Organize.execute ⟨⟨.Extension extsDocs, true⟩, "d"⟩ Env.allOk fs0).2.1
      ["d", "Documents", "a.pdf"] = some [1, 2, 3] ∧
    FS.getFile (Organize.execute ⟨⟨.Extension extsDocs, true⟩, "d"⟩ Env.allOk fs0).2.1
      ["d", "a.pdf"] = some [1, 2, 3] :=
  c4_unique_match_copied extsDocs [] [] "Documents" ["pdf"] true "d" "a.pdf" "pdf"
    [1, 2, 3] fs0 (by decide) (by decide) (by decide) (by decide) (by decide)
    (by decide) (by decide)

/-- C9: running `execute` twice in succession, with any configuration, any
environment of operation outcomes and any starting state, leaves exactly
the directory structure of a single run: the second run re-copies the
still-present top-level files onto identical destinations and re-creates
already existing folders, changing nothing. -/
theorem c9_execute_idempotent (o : Organize) (env : Env) (s : FS) :
    (Organize.execute o env (Organize.execute o env s).2.1).2.1 =
      (Organize.execute o env s).2.1 := by
  obtain ⟨⟨m, par⟩, path⟩ := o
  cases hp : path.isEmpty with
  | true => simp [Organize.execute, hp]
  | false =>
    cases m with
    | Extension exts =>
      cases hrd : env.readDirOk path with
      | false => simp only [organize_execute_ext_noread hp hrd]
      | true =>
        have HL : ∀ g ∈ topFiles s path, s.isFile [path, g] := topFiles_sources
        have h1 : (Organize.execute ⟨⟨.Extension exts, par⟩, path⟩ env s).2.1 =
            runSpec path env exts (topFiles s path) s := by
          rw [organize_execute_state hp hrd]
          exact runSt_eq_runSpec HL
        rw [h1, organize_execute_state hp hrd]
        have hTF : topFiles (runSpec path env exts (topFiles s path) s) path =
            topFiles s path := runSpec_topFiles path
        rw [hTF, runSt_eq_runSpec (fun g hg => runSpec_isFile (HL g hg))]
        exact runSpec_id (fun f hf => stepSpec_id_of_done (runSpec_done HL f hf))
    | Date =>
      simp [Organize.execute, hp, OrganizeMethod.execute, OrganizeMethod.get_files]
    | Alphabetical =>
      simp [Organize.execute, hp, OrganizeMethod.execute, OrganizeMethod.get_files]
    | Size =>
      simp [Organize.execute, hp, OrganizeMethod.execute, OrganizeMethod.get_files]
